import Mathlib

/-!
# Verification of `ss_overlay.py` (secondary_structure_library)

Shallow embedding of the two components specified for this repository:

* the overlay layout engine `secondary_structure_overlay.find_ss_segments_and_generate_overlay`
  together with its patch helpers `add_strand_patch`, `add_helix_patch`,
  `add_rectangle_patch`; and
* the stride-file record reader `read_secondary_structure_assignment`.

Modelling conventions:

* Python lists of residue numbers become `List Int`; Python's `list.remove`
  (which deletes the first occurrence and raises on a missing element)
  becomes `pyRemove`, returning `Except PyError`.
* The matplotlib axis is modelled as the ordered list of drawing primitives
  added to it (`OverlayState.ax`); `ax.add_patch` appends.  Every primitive
  is placed vertically at `y_lims[1] + 0.08`, a constant offset above the
  ambient axis top queried identically for every patch, so the vertical
  anchor carries no per-primitive information and is omitted from the model;
  all x-geometry and the constructor arguments are kept.
* Floating point arithmetic in `add_helix_patch` only ever combines integers
  with the step 0.75 = 3/4 (exactly representable), so `np.arange` and the
  arc centres are modelled over `ℚ` exactly; the arc sweep angles are
  integers in the source and stay `Int`.
* Strings are modelled as `List Char`; Python's `str.replace(pat, "")`
  (delete all leftmost non-overlapping occurrences) is `removeAll`, and
  `str.split(" ")` (split at every single space, keeping empty pieces)
  is `splitOnChar`.
-/

/-- A drawing primitive added to the matplotlib axis.

* `strand x dx` is `mpatches.FancyArrow(strand_start-1, y, strand_end-strand_start, 0,
  length_includes_head=True, ...)`: the arrow occupies `[x, x+dx]` on the x axis.
* `arc cx width height theta1 theta2` is `mpatches.Arc((cx, y), width, height,
  theta1, theta2)` from `add_helix_patch`.
* `rect x length` is `mpatches.Rectangle((start-1, y), length, 0.0001)` from
  `add_rectangle_patch` (so `x = start - 1`). -/
inductive Primitive where
  | strand (x : Int) (dx : Int)
  | arc (cx : ℚ) (width : ℚ) (height : ℚ) (theta1 : Int) (theta2 : Int)
  | rect (x : Int) (length : Int)
deriving DecidableEq

/-- One element of `ss_segment_list`: the nested list
`['SSclass', 'First res 3 letter AA code', first res num, 'Last res 3 letter AA code', last res num]`
with the residue numbers already integers (as produced by
`read_secondary_structure_assignment`).  Field `ss_class` is position 0,
`start_res` position 2, `end_res` position 4. -/
structure Segment where
  ss_class : String
  start_code : String
  start_res : Int
  end_code : String
  end_res : Int
deriving DecidableEq

/-- Python exceptions reachable in the embedded code. -/
inductive PyError where
  /-- `list.remove(y)` with `y` not present (Python raises here). -/
  | remove_not_found (y : Int)
  /-- indexing an empty list, e.g. `residue_numbers[-1]`. -/
  | index_error
  /-- `int(tok)` on a non-numeric token. -/
  | value_error
deriving DecidableEq

/-- Python `range(a, b)` over integers: `[a, a+1, ..., b-1]`, empty when `b ≤ a`. -/
def pyRange (a b : Int) : List Int :=
  (List.range (b - a).toNat).map (fun k : Nat => a + (k : Int))

/-- Python `lst.remove(y)`: delete the first occurrence of `y`, error when absent. -/
def pyRemove (y : Int) : List Int → Except PyError (List Int)
  | [] => .error (.remove_not_found y)
  | a :: rest =>
    if a = y then .ok rest
    else (pyRemove y rest).map (fun r => a :: r)

/-- The removal loop `for y in ys: remaining.remove(y)`. -/
def remove_list (rem : List Int) : List Int → Except PyError (List Int)
  | [] => .ok rem
  | y :: ys =>
    match pyRemove y rem with
    | .error e => .error e
    | .ok rem' => remove_list rem' ys

/-- `for y in range(a, b): remaining.remove(y)` — the per-segment removal in
`find_ss_segments_and_generate_overlay`. -/
def removeRange (rem : List Int) (a b : Int) : Except PyError (List Int) :=
  remove_list rem (pyRange a b)

/-- The mutable state of a `secondary_structure_overlay` object: the caller's
residue number list and the axis, modelled as the ordered list of patches
added so far. -/
structure OverlayState where
  residue_numbers : List Int
  ax : List Primitive
deriving DecidableEq

/-- `add_rectangle_patch(self, start, length)`:
`ax.add_patch(Rectangle((start-1, y_lims[1]+0.08), length, 0.0001))`. -/
def add_rectangle_patch (st : OverlayState) (start length : Int) : OverlayState :=
  { st with ax := st.ax ++ [Primitive.rect (start - 1) length] }

/-- `add_strand_patch(self, strand_start, strand_end)`: add the
`FancyArrow(strand_start-1, y, strand_end-strand_start, 0, ...)` and then
`add_rectangle_patch(strand_end, 1)`. -/
def add_strand_patch (st : OverlayState) (strand_start strand_end : Int) : OverlayState :=
  add_rectangle_patch
    { st with ax := st.ax ++ [Primitive.strand (strand_start - 1) (strand_end - strand_start)] }
    strand_end 1

/-- The number of elements of `np.arange`, `⌈q⌉` clamped at zero, computed on
the rational's numerator and denominator (for a positive denominator
`⌈n/d⌉ = (n + d - 1) / d` with floor division) so the kernel can evaluate
it. -/
def arange_count (q : ℚ) : Nat :=
  ((q.num + (q.den : Int) - 1) / (q.den : Int)).toNat

/-- `np.arange(start, stop, step)` for a positive step on exactly-represented
values: `start + k*step` for `0 ≤ k < ⌈(stop-start)/step⌉`. -/
def arange (start stop step : ℚ) : List ℚ :=
  (List.range (arange_count ((stop - start) / step))).map
    (fun k : Nat => start + (k : ℚ) * step)

/-- The arc loop body of `add_helix_patch`: for each turn start `t` emit
`Arc((t + 0.25, y), length=0.75, height=0.1, theta1=st_theta-1, theta2=en_theta+1)`
and advance both angles by 180. -/
def helix_arcs_loop (st_theta en_theta : Int) : List ℚ → List Primitive
  | [] => []
  | t :: ts =>
    Primitive.arc (t + 1/4) (3/4) (1/10) (st_theta - 1) (en_theta + 1)
      :: helix_arcs_loop (st_theta + 180) (en_theta + 180) ts

/-- All arcs of one helix: `for t_start in np.arange(helix_start-1, helix_end-1, 0.75)`
starting from `st_theta, en_theta = 0, 180`. -/
def helix_arcs (helix_start helix_end : Int) : List Primitive :=
  helix_arcs_loop 0 180 (arange ((helix_start : ℚ) - 1) ((helix_end : ℚ) - 1) (3/4))

/-- `add_helix_patch(self, helix_start, helix_end)`: add the arcs, then
`if helix_end < int(self.residue_numbers[-1]): add_rectangle_patch(helix_end, 1)`.
Indexing `residue_numbers[-1]` on an empty list raises. -/
def add_helix_patch (st : OverlayState) (helix_start helix_end : Int) :
    Except PyError OverlayState :=
  match st.residue_numbers.getLast? with
  | none => .error .index_error
  | some last =>
    if helix_end < last then
      .ok (add_rectangle_patch { st with ax := st.ax ++ helix_arcs helix_start helix_end }
            helix_end 1)
    else .ok { st with ax := st.ax ++ helix_arcs helix_start helix_end }

/-- Step 2 of `find_ss_segments_and_generate_overlay`: the loop over
`self.ss_segment_list`.  `remaining` is the local
`residues_without_ss_assignment` worklist. -/
def process_segments (st : OverlayState) (remaining : List Int) :
    List Segment → Except PyError (OverlayState × List Int)
  | [] => .ok (st, remaining)
  | seg :: rest =>
    if seg.ss_class = "Strand" then
      let st' := add_strand_patch st seg.start_res seg.end_res
      match removeRange remaining seg.start_res seg.end_res with
      | .error e => .error e
      | .ok remaining' => process_segments st' remaining' rest
    else if seg.ss_class = "AlphaHelix" then
      match add_helix_patch st seg.start_res seg.end_res with
      | .error e => .error e
      | .ok st' =>
        match removeRange remaining seg.start_res seg.end_res with
        | .error e => .error e
        | .ok remaining' => process_segments st' remaining' rest
    else
      process_segments st remaining rest

/-- Step 3 of `find_ss_segments_and_generate_overlay`: one thin rectangle per
residue still in the worklist, shifted one unit right when the residue equals
`self.residue_numbers[0]`.  (`residue_numbers` is nonempty whenever the
worklist is, since the worklist starts as a copy of it and only shrinks, so
`headI` is only consulted on nonempty lists.) -/
def connector_pass (st : OverlayState) (remaining : List Int) : OverlayState :=
  remaining.foldl
    (fun st' r =>
      if r = st'.residue_numbers.headI then add_rectangle_patch st' (r + 1) 1
      else add_rectangle_patch st' r 1)
    st

/-- `find_ss_segments_and_generate_overlay(self)`:
`residues_without_ss_assignment = deepcopy(self.residue_numbers)` (an
unaliased copy — modelled by passing the list by value), then the segment
loop, then the connector loop. -/
def find_ss_segments_and_generate_overlay (st : OverlayState)
    (ss_segment_list : List Segment) : Except PyError OverlayState :=
  match process_segments st st.residue_numbers ss_segment_list with
  | .error e => .error e
  | .ok (st', remaining) => .ok (connector_pass st' remaining)

/-- The layout contract of the spec: run the overlay generation on a fresh
axis and return the ordered primitive sequence it draws. -/
def layout (residue_track : List Int) (segments : List Segment) :
    Except PyError (List Primitive) :=
  match find_ss_segments_and_generate_overlay
      { residue_numbers := residue_track, ax := [] } segments with
  | .error e => .error e
  | .ok st => .ok st.ax

/-! ## The stride annotation reader `read_secondary_structure_assignment` -/

/-- Recursion core of `removeAll`, structurally recursive on a fuel argument
(each step consumes at least one character, so `s.length` fuel always
suffices; the `0, s => s` branch is unreachable from `removeAll`). -/
def removeAllAux (pat : List Char) : Nat → List Char → List Char
  | _, [] => []
  | 0, s => s
  | fuel + 1, c :: rest =>
    if pat.isPrefixOf (c :: rest) && !pat.isEmpty then
      removeAllAux pat fuel (rest.drop (pat.length - 1))
    else
      c :: removeAllAux pat fuel rest

/-- Python `s.replace(pat, "")`: delete all leftmost non-overlapping
occurrences of `pat` in `s` (with an empty pattern the string is unchanged). -/
def removeAll (pat s : List Char) : List Char :=
  removeAllAux pat s.length s

/-- Python `s.split(sep)` for a one-character separator: split at every single
occurrence of `sep`, keeping empty pieces between adjacent separators. -/
def splitOnChar (sep : Char) : List Char → List (List Char)
  | [] => [[]]
  | c :: rest =>
    let r := splitOnChar sep rest
    if c = sep then [] :: r
    else (c :: r.headI) :: r.tail

/-- The digits of a decimal numeral, or `none` when empty or non-numeric. -/
def digitsToNat (s : List Char) : Option Nat :=
  if s = [] then none
  else s.foldlM
    (fun acc c => if c.isDigit then some (acc * 10 + (c.toNat - '0'.toNat)) else none) 0

/-- Python `int(tok)` on a whitespace-free token: optional sign then decimal
digits. -/
def pyInt (s : List Char) : Option Int :=
  match s with
  | [] => none
  | c :: rest =>
    if c = '-' then (digitsToNat rest).map (fun n : Nat => -(n : Int))
    else if c = '+' then (digitsToNat rest).map (fun n : Nat => (n : Int))
    else (digitsToNat (c :: rest)).map (fun n : Nat => (n : Int))

/-- The per-line noise stripping and tokenisation of a `LOC` record:
`line.replace("-","").replace("LOC","").replace("~","").replace(" A ","").replace(" B ","").split(" ")`
followed by `while "" in toks: toks.remove("")` (which deletes every empty
token, i.e. a filter). -/
def clean_line (l : List Char) : List (List Char) :=
  (splitOnChar ' '
      (removeAll [' ', 'B', ' ']
        (removeAll [' ', 'A', ' ']
          (removeAll ['~']
            (removeAll ['L', 'O', 'C']
              (removeAll ['-'] l)))))).filter (fun t => t ≠ [])

/-- One element of a parsed record: the token lists stay strings except
positions 2 and 4, which are overwritten with integers. -/
inductive Tok where
  | s (v : List Char)
  | i (v : Int)
deriving DecidableEq

/-- Processing of one selected `LOC` line: tokenise, then
`toks[2] = int(toks[2]); toks[4] = int(toks[4])` (indexing raises on a short
token list, `int` raises on a non-numeric token). -/
def parse_LOC_line (l : List Char) : Except PyError (List Tok) :=
  let toks := clean_line l
  match toks.get? 2 with
  | none => .error .index_error
  | some t2 =>
    match pyInt t2 with
    | none => .error .value_error
    | some n2 =>
      match toks.get? 4 with
      | none => .error .index_error
      | some t4 =>
        match pyInt t4 with
        | none => .error .value_error
        | some n4 =>
          .ok ((((toks.map Tok.s).set 2 (Tok.i n2)).set 4 (Tok.i n4)))

/-- `read_secondary_structure_assignment`: keep exactly the lines whose first
three characters are `LOC`, in file order, and process each. -/
def read_secondary_structure_assignment (stride_lines : List String) :
    Except PyError (List (List Tok)) :=
  ((stride_lines.map String.toList).filter
      (fun l => l.take 3 = ['L', 'O', 'C'])).mapM parse_LOC_line

/-- The number of ConnectorPrimitives (thin rectangles) in a primitive list. -/
def count_connectors (ps : List Primitive) : Nat :=
  ps.countP (fun p => match p with | Primitive.rect _ _ => true | _ => false)

/-- The number of StrandPrimitives (fancy arrows) in a primitive list. -/
def count_strands (ps : List Primitive) : Nat :=
  ps.countP (fun p => match p with | Primitive.strand _ _ => true | _ => false)

/-! ## Helper lemmas about the removal worklist -/

theorem pyRemove_ok_sublist {y : Int} {xs r : List Int}
    (h : pyRemove y xs = .ok r) : r.Sublist xs := by
  induction xs generalizing r with
  | nil => simp [pyRemove] at h
  | cons a rest ih =>
    rw [pyRemove] at h
    by_cases ha : a = y
    · subst ha
      rw [if_pos rfl] at h
      injection h with h
      subst h
      exact List.sublist_cons_self a rest
    · simp only [if_neg ha] at h
      cases hr : pyRemove y rest with
      | error e => rw [hr] at h; simp [Except.map] at h
      | ok r' =>
        rw [hr] at h
        simp only [Except.map, Except.ok.injEq] at h
        subst h
        exact List.Sublist.cons₂ a (ih hr)

theorem pyRemove_ok_count_self {y : Int} {xs r : List Int}
    (h : pyRemove y xs = .ok r) : r.count y + 1 = xs.count y := by
  induction xs generalizing r with
  | nil => simp [pyRemove] at h
  | cons a rest ih =>
    rw [pyRemove] at h
    by_cases ha : a = y
    · subst ha
      rw [if_pos rfl] at h
      injection h with h
      subst h
      simp [List.count_cons]
    · simp only [if_neg ha] at h
      cases hr : pyRemove y rest with
      | error e => rw [hr] at h; simp [Except.map] at h
      | ok r' =>
        rw [hr] at h
        simp only [Except.map, Except.ok.injEq] at h
        subst h
        simp [List.count_cons, ha, ih hr]

theorem pyRemove_ok_count_ne {y z : Int} {xs r : List Int}
    (h : pyRemove y xs = .ok r) (hz : z ≠ y) : r.count z = xs.count z := by
  induction xs generalizing r with
  | nil => simp [pyRemove] at h
  | cons a rest ih =>
    rw [pyRemove] at h
    by_cases ha : a = y
    · subst ha
      rw [if_pos rfl] at h
      injection h with h
      subst h
      rw [List.count_cons]
      simp [Ne.symm hz]
    · simp only [if_neg ha] at h
      cases hr : pyRemove y rest with
      | error e => rw [hr] at h; simp [Except.map] at h
      | ok r' =>
        rw [hr] at h
        simp only [Except.map, Except.ok.injEq] at h
        subst h
        simp [List.count_cons, ih hr]

theorem pyRemove_ok_mem {y : Int} {xs r : List Int}
    (h : pyRemove y xs = .ok r) : y ∈ xs := by
  induction xs generalizing r with
  | nil => simp [pyRemove] at h
  | cons a rest ih =>
    rw [pyRemove] at h
    by_cases ha : a = y
    · subst ha; exact List.mem_cons_self a rest
    · simp only [if_neg ha] at h
      cases hr : pyRemove y rest with
      | error e => rw [hr] at h; simp [Except.map] at h
      | ok r' => exact List.mem_cons_of_mem a (ih hr)

theorem pyRemove_error_shape {y : Int} {xs : List Int} {e : PyError}
    (h : pyRemove y xs = .error e) : e = PyError.remove_not_found y := by
  induction xs with
  | nil => simpa [pyRemove] using h.symm
  | cons a rest ih =>
    rw [pyRemove] at h
    by_cases ha : a = y
    · simp [ha] at h
    · simp only [if_neg ha] at h
      cases hr : pyRemove y rest with
      | error e2 =>
        rw [hr] at h
        simp only [Except.map, Except.error.injEq] at h
        subst h
        exact ih hr
      | ok r' => rw [hr] at h; simp [Except.map] at h

theorem remove_list_ok_sublist {rem r : List Int} {ys : List Int}
    (h : remove_list rem ys = .ok r) : r.Sublist rem := by
  induction ys generalizing rem with
  | nil =>
    simp only [remove_list, Except.ok.injEq] at h
    exact h ▸ List.Sublist.refl rem
  | cons y ys ih =>
    rw [remove_list] at h
    cases hr : pyRemove y rem with
    | error e => rw [hr] at h; exact absurd h (by simp)
    | ok rem' =>
      rw [hr] at h
      exact (ih h).trans (pyRemove_ok_sublist hr)

theorem remove_list_ok_mem {rem r : List Int} {ys : List Int}
    (h : remove_list rem ys = .ok r) : ∀ y ∈ ys, y ∈ rem := by
  induction ys generalizing rem with
  | nil => simp
  | cons y ys ih =>
    rw [remove_list] at h
    cases hr : pyRemove y rem with
    | error e => rw [hr] at h; exact absurd h (by simp)
    | ok rem' =>
      rw [hr] at h
      intro z hz
      rcases List.mem_cons.mp hz with hzy | hzys
      · exact hzy ▸ pyRemove_ok_mem hr
      · exact (pyRemove_ok_sublist hr).mem (ih h z hzys)

theorem remove_list_count {rem r : List Int} {ys : List Int}
    (hnd : ys.Nodup) (h : remove_list rem ys = .ok r) :
    (∀ y ∈ ys, r.count y + 1 = rem.count y) ∧
    (∀ z, z ∉ ys → r.count z = rem.count z) := by
  induction ys generalizing rem with
  | nil =>
    simp only [remove_list, Except.ok.injEq] at h
    subst h
    exact ⟨by simp, fun _ _ => rfl⟩
  | cons y ys ih =>
    rw [remove_list] at h
    cases hr : pyRemove y rem with
    | error e => rw [hr] at h; exact absurd h (by simp)
    | ok rem' =>
      rw [hr] at h
      have hy_not : y ∉ ys := (List.nodup_cons.mp hnd).1
      have ihm := ih (List.nodup_cons.mp hnd).2 h
      refine ⟨?_, ?_⟩
      · intro z hz
        rcases List.mem_cons.mp hz with hzy | hzys
        · subst hzy
          rw [ihm.2 z hy_not]
          exact pyRemove_ok_count_self hr
        · have hzy : z ≠ y := fun hc => hy_not (hc ▸ hzys)
          rw [ihm.1 z hzys, pyRemove_ok_count_ne hr hzy]
      · intro z hz
        have hz1 : z ≠ y := fun hc => hz (hc ▸ List.mem_cons_self y ys)
        have hz2 : z ∉ ys := fun hc => hz (List.mem_cons_of_mem y hc)
        rw [ihm.2 z hz2, pyRemove_ok_count_ne hr hz1]

theorem remove_list_error_shape {rem : List Int} {ys : List Int} {e : PyError}
    (h : remove_list rem ys = .error e) : ∃ z, e = PyError.remove_not_found z := by
  induction ys generalizing rem with
  | nil => simp [remove_list] at h
  | cons y ys ih =>
    rw [remove_list] at h
    cases hr : pyRemove y rem with
    | error e' =>
      rw [hr] at h
      simp only [Except.error.injEq] at h
      exact ⟨y, h ▸ pyRemove_error_shape hr⟩
    | ok rem' =>
      rw [hr] at h
      exact ih h

theorem remove_list_error_of_missing {rem : List Int} {ys : List Int}
    (hmiss : ∃ y ∈ ys, y ∉ rem) :
    ∃ z, remove_list rem ys = .error (PyError.remove_not_found z) := by
  cases h : remove_list rem ys with
  | ok r =>
    obtain ⟨y, hy, hyr⟩ := hmiss
    exact absurd (remove_list_ok_mem h y hy) hyr
  | error e =>
    obtain ⟨z, hz⟩ := remove_list_error_shape h
    exact ⟨z, hz ▸ rfl⟩

theorem mem_pyRange {y a b : Int} : y ∈ pyRange a b ↔ a ≤ y ∧ y < b := by
  rw [pyRange]
  constructor
  · intro hy
    obtain ⟨k, hk, hky⟩ := List.mem_map.mp hy
    rw [List.mem_range] at hk
    omega
  · intro ⟨h1, h2⟩
    exact List.mem_map.mpr ⟨(y - a).toNat, List.mem_range.mpr (by omega), by omega⟩

theorem pyRange_nodup (a b : Int) : (pyRange a b).Nodup := by
  rw [pyRange]
  exact (List.nodup_range _).map fun x y h => by omega

/-! ## Helper lemmas about the overlay engine -/

theorem add_strand_patch_eq (st : OverlayState) (s e : Int) :
    add_strand_patch st s e =
      { st with ax := st.ax ++
          [Primitive.strand (s - 1) (e - s), Primitive.rect (e - 1) 1] } := by
  simp [add_strand_patch, add_rectangle_patch]

theorem add_helix_patch_eq (st : OverlayState) (s e last : Int)
    (h : st.residue_numbers.getLast? = some last) :
    add_helix_patch st s e =
      .ok { st with ax := st.ax ++ helix_arcs s e ++
              (if e < last then [Primitive.rect (e - 1) 1] else []) } := by
  simp only [add_helix_patch, h]
  by_cases he : e < last
  · rw [if_pos he, if_pos he]
    simp [add_rectangle_patch]
  · rw [if_neg he, if_neg he]
    simp

theorem add_helix_patch_ok_residue {st st' : OverlayState} {s e : Int}
    (h : add_helix_patch st s e = .ok st') :
    st'.residue_numbers = st.residue_numbers := by
  cases hl : st.residue_numbers.getLast? with
  | none => simp only [add_helix_patch, hl] at h; exact absurd h (by simp)
  | some last =>
    simp only [add_helix_patch, hl] at h
    by_cases he : e < last
    · rw [if_pos he] at h
      injection h with h
      rw [← h]
      rfl
    · rw [if_neg he] at h
      injection h with h
      rw [← h]

theorem process_segments_append (st : OverlayState) (rem : List Int)
    (l1 l2 : List Segment) :
    process_segments st rem (l1 ++ l2) =
      match process_segments st rem l1 with
      | .error e => .error e
      | .ok (st', rem') => process_segments st' rem' l2 := by
  induction l1 generalizing st rem with
  | nil => simp [process_segments]
  | cons seg rest ih =>
    rw [List.cons_append]
    simp only [process_segments]
    by_cases h1 : seg.ss_class = "Strand"
    · simp only [if_pos h1]
      cases removeRange rem seg.start_res seg.end_res with
      | error e => rfl
      | ok rem' => exact ih _ _
    · simp only [if_neg h1]
      by_cases h2 : seg.ss_class = "AlphaHelix"
      · simp only [if_pos h2]
        cases add_helix_patch st seg.start_res seg.end_res with
        | error e => rfl
        | ok st' =>
          cases removeRange rem seg.start_res seg.end_res with
          | error e => rfl
          | ok rem' => exact ih _ _
      · simp only [if_neg h2]
        exact ih _ _

theorem process_segments_ok_residue {st st' : OverlayState} {rem rem' : List Int}
    {segs : List Segment}
    (h : process_segments st rem segs = .ok (st', rem')) :
    st'.residue_numbers = st.residue_numbers := by
  induction segs generalizing st rem with
  | nil =>
    simp only [process_segments, Except.ok.injEq, Prod.mk.injEq] at h
    rw [← h.1]
  | cons seg rest ih =>
    simp only [process_segments] at h
    by_cases h1 : seg.ss_class = "Strand"
    · rw [if_pos h1] at h
      cases hr : removeRange rem seg.start_res seg.end_res with
      | error e => rw [hr] at h; simp at h
      | ok rem2 =>
        rw [hr] at h
        rw [ih h, add_strand_patch_eq]
    · rw [if_neg h1] at h
      by_cases h2 : seg.ss_class = "AlphaHelix"
      · rw [if_pos h2] at h
        cases hh : add_helix_patch st seg.start_res seg.end_res with
        | error e => rw [hh] at h; simp at h
        | ok st2 =>
          rw [hh] at h
          cases hr : removeRange rem seg.start_res seg.end_res with
          | error e => rw [hr] at h; simp at h
          | ok rem2 =>
            rw [hr] at h
            rw [ih h, add_helix_patch_ok_residue hh]
      · rw [if_neg h2] at h
        exact ih h

theorem process_segments_ok_sublist {st st' : OverlayState} {rem rem' : List Int}
    {segs : List Segment}
    (h : process_segments st rem segs = .ok (st', rem')) :
    rem'.Sublist rem := by
  induction segs generalizing st rem with
  | nil =>
    simp only [process_segments, Except.ok.injEq, Prod.mk.injEq] at h
    rw [← h.2]
  | cons seg rest ih =>
    simp only [process_segments] at h
    by_cases h1 : seg.ss_class = "Strand"
    · rw [if_pos h1] at h
      cases hr : removeRange rem seg.start_res seg.end_res with
      | error e => rw [hr] at h; simp at h
      | ok rem2 =>
        rw [hr] at h
        exact (ih h).trans (remove_list_ok_sublist hr)
    · rw [if_neg h1] at h
      by_cases h2 : seg.ss_class = "AlphaHelix"
      · rw [if_pos h2] at h
        cases hh : add_helix_patch st seg.start_res seg.end_res with
        | error e => rw [hh] at h; simp at h
        | ok st2 =>
          rw [hh] at h
          cases hr : removeRange rem seg.start_res seg.end_res with
          | error e => rw [hr] at h; simp at h
          | ok rem2 =>
            rw [hr] at h
            exact (ih h).trans (remove_list_ok_sublist hr)
      · rw [if_neg h2] at h
        exact ih h

theorem connector_pass_eq (st : OverlayState) (rem : List Int) :
    connector_pass st rem =
      ⟨st.residue_numbers,
       st.ax ++ rem.map (fun r =>
         if r = st.residue_numbers.headI then Primitive.rect r 1
         else Primitive.rect (r - 1) 1)⟩ := by
  induction rem generalizing st with
  | nil => simp [connector_pass]
  | cons r rest ih =>
    have hstep : connector_pass st (r :: rest) =
        connector_pass
          (if r = st.residue_numbers.headI then add_rectangle_patch st (r + 1) 1
           else add_rectangle_patch st r 1) rest := rfl
    rw [hstep]
    by_cases hr : r = st.residue_numbers.headI
    · rw [if_pos hr, ih (add_rectangle_patch st (r + 1) 1)]
      simp [add_rectangle_patch, hr, Int.add_sub_cancel]
    · rw [if_neg hr, ih (add_rectangle_patch st r 1)]
      simp [add_rectangle_patch, hr]

theorem except_map_compose {α β γ ε : Type} (f : β → γ) (g : α → β) (x : Except ε α) :
    Except.map f (Except.map g x) = Except.map (fun a => f (g a)) x := by
  cases x <;> rfl

theorem except_map_ok {α β ε : Type} (f : α → β) (a : α) :
    Except.map f (Except.ok a : Except ε α) = .ok (f a) := rfl

theorem add_helix_patch_ax (t : List Int) (ax : List Primitive) (s e : Int) :
    add_helix_patch ⟨t, ax⟩ s e =
      Except.map (fun st => (⟨t, ax ++ st.ax⟩ : OverlayState))
        (add_helix_patch ⟨t, []⟩ s e) := by
  cases hl : t.getLast? with
  | none => simp [add_helix_patch, hl, Except.map]
  | some last =>
    by_cases he : e < last
    · simp [add_helix_patch, hl, he, add_rectangle_patch, Except.map]
    · simp [add_helix_patch, hl, he, Except.map]

theorem process_segments_ax (t : List Int) (ax : List Primitive) (rem : List Int)
    (segs : List Segment) :
    process_segments ⟨t, ax⟩ rem segs =
      Except.map (fun q => ((⟨t, ax ++ q.1.ax⟩ : OverlayState), q.2))
        (process_segments ⟨t, []⟩ rem segs) := by
  induction segs generalizing ax rem with
  | nil => simp [process_segments, Except.map]
  | cons seg rest ih =>
    simp only [process_segments]
    by_cases h1 : seg.ss_class = "Strand"
    · rw [if_pos h1, if_pos h1]
      cases hr : removeRange rem seg.start_res seg.end_res with
      | error e => rfl
      | ok rem2 =>
        simp only [add_strand_patch_eq, List.nil_append]
        conv_lhs => rw [ih]
        conv_rhs => rw [ih, except_map_compose]
        congr 1
        funext q
        simp
    · rw [if_neg h1, if_neg h1]
      by_cases h2 : seg.ss_class = "AlphaHelix"
      · rw [if_pos h2, if_pos h2]
        rw [add_helix_patch_ax]
        cases hh : add_helix_patch ⟨t, []⟩ seg.start_res seg.end_res with
        | error e => rfl
        | ok st2 =>
          have ht2 : st2.residue_numbers = t := add_helix_patch_ok_residue hh
          obtain ⟨t2, ax2⟩ := st2
          simp only at ht2
          subst ht2
          simp only [except_map_ok]
          cases hr : removeRange rem seg.start_res seg.end_res with
          | error e => rfl
          | ok rem2 =>
            simp only
            conv_lhs => rw [ih]
            conv_rhs => rw [ih, except_map_compose]
            congr 1
            funext q
            simp
      · rw [if_neg h2, if_neg h2]
        exact ih ax rem

theorem generate_overlay_ax (t : List Int) (ax : List Primitive) (segs : List Segment) :
    find_ss_segments_and_generate_overlay ⟨t, ax⟩ segs =
      Except.map (fun st => (⟨t, ax ++ st.ax⟩ : OverlayState))
        (find_ss_segments_and_generate_overlay ⟨t, []⟩ segs) := by
  simp only [find_ss_segments_and_generate_overlay]
  rw [process_segments_ax]
  cases hq : process_segments ⟨t, []⟩ t segs with
  | error e => rfl
  | ok q =>
    obtain ⟨st1, rem1⟩ := q
    have ht1 : st1.residue_numbers = t := process_segments_ok_residue hq
    simp [Except.map, connector_pass_eq, ht1]

/-! ## Helper lemmas about the helix arcs -/

theorem helix_arcs_loop_get (a b : Int) (ts : List ℚ) (k : Nat) :
    (helix_arcs_loop a b ts).get? k =
      (ts.get? k).map (fun t =>
        Primitive.arc (t + 1/4) (3/4) (1/10) (a + 180 * k - 1) (b + 180 * k + 1)) := by
  induction ts generalizing a b k with
  | nil => simp [helix_arcs_loop]
  | cons t ts ih =>
    cases k with
    | zero => simp [helix_arcs_loop]
    | succ k =>
      simp only [helix_arcs_loop, List.get?_cons_succ]
      rw [ih]
      congr 1
      funext t
      simp only [Primitive.arc.injEq]
      refine ⟨trivial, trivial, trivial, ?_, ?_⟩ <;> push_cast <;> ring

theorem lt_arange_count {k : Nat} {q : ℚ} : k < arange_count q ↔ (k : ℚ) < q := by
  have hden : (0 : Int) < (q.den : Int) := by exact_mod_cast q.den_pos
  have hdenQ : (0 : ℚ) < (q.den : ℚ) := by exact_mod_cast q.den_pos
  have h2 : ((k : ℚ) < q) ↔ ((k : Int) * (q.den : Int) < q.num) := by
    constructor
    · intro h
      have h' : (k : ℚ) < (q.num : ℚ) / (q.den : ℚ) := by
        rw [Rat.num_div_den]
        exact h
      have h'' := (lt_div_iff hdenQ).mp h'
      exact_mod_cast h''
    · intro h
      rw [← Rat.num_div_den q, lt_div_iff hdenQ]
      exact_mod_cast h
  rw [h2, arange_count, Int.lt_toNat, Int.lt_iff_add_one_le,
    Int.le_ediv_iff_mul_le hden, add_mul, one_mul]
  constructor <;> intro h <;> linarith

theorem arange_get (a b s : ℚ) (k : Nat) :
    (arange a b s).get? k =
      if (k : ℚ) < (b - a) / s then some (a + (k : ℚ) * s) else none := by
  rw [arange]
  by_cases hk : k < arange_count ((b - a) / s)
  · rw [List.get?_map, List.get?_range hk, if_pos (lt_arange_count.mp hk)]
    rfl
  · have hlen : ((List.range (arange_count ((b - a) / s))).map
        (fun k : Nat => a + (k : ℚ) * s)).length ≤ k := by
      simpa using Nat.le_of_not_lt hk
    rw [List.get?_eq_none.mpr hlen, if_neg (fun hc => hk (lt_arange_count.mpr hc))]

/-! ## Helper lemmas about the annotation reader -/

theorem removeAllAux_sublist (pat : List Char) :
    ∀ (fuel : Nat) (s : List Char), (removeAllAux pat fuel s).Sublist s := by
  intro fuel
  induction fuel with
  | zero => intro s; cases s <;> simp [removeAllAux]
  | succ n ih =>
    intro s
    cases s with
    | nil => simp [removeAllAux]
    | cons c rest =>
      rw [removeAllAux]
      by_cases hcond : (pat.isPrefixOf (c :: rest) && !pat.isEmpty) = true
      · rw [if_pos hcond]
        exact ((ih _).trans (List.drop_sublist _ _)).trans
          (List.sublist_cons_self c rest)
      · rw [if_neg hcond]
        exact List.Sublist.cons₂ c (ih rest)

theorem removeAll_sublist (pat s : List Char) : (removeAll pat s).Sublist s :=
  removeAllAux_sublist pat s.length s

theorem removeAllAux_single_eq_filter (d : Char) :
    ∀ (fuel : Nat) (s : List Char), s.length ≤ fuel →
      removeAllAux [d] fuel s = s.filter (fun c => c != d) := by
  intro fuel
  induction fuel with
  | zero =>
    intro s hs
    have hnil : s = [] := List.length_eq_zero.mp (Nat.le_zero.mp hs)
    subst hnil
    rfl
  | succ n ih =>
    intro s hs
    cases s with
    | nil => simp [removeAllAux]
    | cons c rest =>
      have hrest : rest.length ≤ n := by
        have : rest.length + 1 ≤ n + 1 := by simpa using hs
        omega
      by_cases hc : c = d
      · subst hc
        rw [show removeAllAux [c] (n + 1) (c :: rest) = removeAllAux [c] n rest from by
          simp [removeAllAux, List.isPrefixOf]]
        rw [ih rest hrest]
        simp [List.filter_cons]
      · rw [show removeAllAux [d] (n + 1) (c :: rest) = c :: removeAllAux [d] n rest from by
          simp [removeAllAux, List.isPrefixOf, Ne.symm hc]]
        rw [ih rest hrest]
        simp [List.filter_cons, bne_iff_ne, hc]

theorem removeAll_single_eq_filter (d : Char) (s : List Char) :
    removeAll [d] s = s.filter (fun c => c != d) :=
  removeAllAux_single_eq_filter d s.length s le_rfl

theorem headI_mem_of_ne_nil {α : Type} [Inhabited α] {l : List α} (h : l ≠ []) :
    l.headI ∈ l := by
  cases l with
  | nil => exact absurd rfl h
  | cons a t => simp

theorem splitOnChar_ne_nil (sep : Char) (s : List Char) : splitOnChar sep s ≠ [] := by
  cases s with
  | nil => simp [splitOnChar]
  | cons c rest =>
    simp only [splitOnChar]
    by_cases hc : c = sep
    · rw [if_pos hc]; simp
    · rw [if_neg hc]; simp

theorem mem_splitOnChar (sep : Char) (s : List Char) :
    ∀ t ∈ splitOnChar sep s, ∀ c ∈ t, c ∈ s := by
  induction s with
  | nil =>
    intro t ht c hc
    simp only [splitOnChar, List.mem_singleton] at ht
    subst ht
    simp at hc
  | cons a rest ih =>
    intro t ht c hc
    simp only [splitOnChar] at ht
    by_cases ha : a = sep
    · rw [if_pos ha] at ht
      rcases List.mem_cons.mp ht with rfl | htr
      · simp at hc
      · exact List.mem_cons_of_mem a (ih t htr c hc)
    · rw [if_neg ha] at ht
      rcases List.mem_cons.mp ht with rfl | htr
      · rcases List.mem_cons.mp hc with rfl | hch
        · exact List.mem_cons_self _ _
        · have hne := splitOnChar_ne_nil sep rest
          have hh : (splitOnChar sep rest).headI ∈ splitOnChar sep rest :=
            headI_mem_of_ne_nil hne
          exact List.mem_cons_of_mem a (ih _ hh c hch)
      · have htr' : t ∈ splitOnChar sep rest := List.mem_of_mem_tail htr
        exact List.mem_cons_of_mem a (ih t htr' c hc)

theorem pyInt_nonneg {s : List Char} {n : Int}
    (h : pyInt s = some n) (hd : '-' ∉ s) : 0 ≤ n := by
  cases s with
  | nil => simp [pyInt] at h
  | cons c rest =>
    rw [pyInt] at h
    by_cases hc : c = '-'
    · subst hc
      exact absurd (List.mem_cons_self _ _) hd
    · rw [if_neg hc] at h
      by_cases hp : c = '+'
      · rw [if_pos hp] at h
        obtain ⟨m, hm, hmn⟩ := Option.map_eq_some'.mp h
        omega
      · rw [if_neg hp] at h
        obtain ⟨m, hm, hmn⟩ := Option.map_eq_some'.mp h
        omega

theorem clean_line_no_hyphen (l : List Char) : ∀ t ∈ clean_line l, '-' ∉ t := by
  intro t ht hmem
  rw [clean_line] at ht
  have ht' := List.mem_of_mem_filter ht
  have hchar : '-' ∈ removeAll [' ', 'B', ' ']
      (removeAll [' ', 'A', ' ']
        (removeAll ['~']
          (removeAll ['L', 'O', 'C']
            (removeAll ['-'] l)))) :=
    mem_splitOnChar ' ' _ t ht' '-' hmem
  have h2 : '-' ∈ removeAll ['-'] l :=
    (removeAll_sublist _ _).subset ((removeAll_sublist _ _).subset
      ((removeAll_sublist _ _).subset ((removeAll_sublist _ _).subset hchar)))
  rw [removeAll_single_eq_filter] at h2
  simp [List.mem_filter] at h2

/-! ## Claim theorems

The arithmetic of `Rat` in Batteries is marked irreducible; the concrete
evaluations below need it unfolded. -/

attribute [local semireducible] Rat.mul Rat.inv Rat.add Rat.sub

/-- C7: for every AlphaHelix segment the emitted HelixPrimitive consists of
half-turn arcs placed at steps of 0.75 chart units from `helix_start-1` up to
(excluding) `helix_end-1` (the k-th arc exists exactly when
`(s-1) + k*0.75 < e-1`, and its centre is that turn start plus 0.25), each arc
of width 0.75 and height 0.1, with sweep angles alternating 0°–180° /
180°–360° per step (the stored angles `180k-1` and `180k+181` are congruent
mod 360 to the alternating sweep start minus 1 and sweep end plus 1). -/
theorem helix_arc_geometry (s e : Int) (k : Nat) :
    (helix_arcs s e).get? k =
      (if ((s : ℚ) - 1) + (k : ℚ) * (3/4) < (e : ℚ) - 1 then
        some (Primitive.arc (((s : ℚ) - 1) + (k : ℚ) * (3/4) + 1/4) (3/4) (1/10)
          (180 * (k : Int) - 1) (180 * (k : Int) + 181))
      else none) ∧
    (180 * (k : Int) - 1 - (if k % 2 = 0 then -1 else 179)) % 360 = 0 ∧
    (180 * (k : Int) + 181 - (if k % 2 = 0 then 180 + 1 else 360 + 1)) % 360 = 0 := by
  refine ⟨?_, ?_, ?_⟩
  · rw [helix_arcs, helix_arcs_loop_get, arange_get]
    have h34 : (0 : ℚ) < 3/4 := by norm_num
    have hcond : ((k : ℚ) < (((e : ℚ) - 1) - ((s : ℚ) - 1)) / (3/4)) ↔
        ((s : ℚ) - 1) + (k : ℚ) * (3/4) < (e : ℚ) - 1 := by
      rw [lt_div_iff h34]
      constructor <;> intro h <;> linarith
    by_cases hc : ((s : ℚ) - 1) + (k : ℚ) * (3/4) < (e : ℚ) - 1
    · rw [if_pos (hcond.mpr hc), if_pos hc]
      simp only [Option.map_some']
      have h1 : (0 : Int) + 180 * (k : Int) - 1 = 180 * (k : Int) - 1 := by ring
      have h2 : (180 : Int) + 180 * (k : Int) + 1 = 180 * (k : Int) + 181 := by ring
      rw [h1, h2]
    · rw [if_neg (fun hcc => hc (hcond.mp hcc)), if_neg hc]
      rfl
  · by_cases hk : k % 2 = 0
    · rw [if_pos hk]; omega
    · rw [if_neg hk]; omega
  · by_cases hk : k % 2 = 0
    · rw [if_pos hk]; omega
    · rw [if_neg hk]; omega

/-- C5: the reader selects exactly the lines whose first three characters are
`LOC` (in file order), strips hyphens, the `LOC` marker, tildes and the chain
tokens, splits on whitespace, drops empty tokens, converts positions 2 and 4
to integers and keeps 0, 1, 3 verbatim; in particular the spec's example line
yields `['AlphaHelix', 'GLU', 79, 'MET', 99]`. -/
theorem loc_line_selection_and_parsing :
    read_secondary_structure_assignment
      ["REM  --------------",
       "LOC  AlphaHelix GLU    79 A      MET   99 A   ",
       "ASG  ALA A    1 ...",
       "LO",
       "LOC  Strand GLY 4 A  LYS 12 A  "] =
      .ok [[Tok.s "AlphaHelix".toList, Tok.s "GLU".toList, Tok.i 79,
            Tok.s "MET".toList, Tok.i 99],
           [Tok.s "Strand".toList, Tok.s "GLY".toList, Tok.i 4,
            Tok.s "LYS".toList, Tok.i 12]] := by
  rfl

/-- C2 counterexample: on track `[1,2,3]` with helix segment `2..4`, the
layout succeeds, the helix's end residue 4 differs from the track's final
residue 3, and yet no trailing connector at the end residue
(`add_rectangle_patch 4 1`, i.e. `rect 3 1`) is emitted — refuting the claim
that the only exception is a helix ending exactly at the final residue (the
code's guard is `helix_end < residue_numbers[-1]`). -/
theorem helix_trailing_connector_counterexample :
    layout [1, 2, 3] [⟨"AlphaHelix", "GLY", 2, "LYS", 4⟩] =
      .ok [Primitive.arc (5/4) (3/4) (1/10) (-1) 181,
           Primitive.arc 2 (3/4) (1/10) 179 361,
           Primitive.arc (11/4) (3/4) (1/10) 359 541,
           Primitive.rect 1 1] ∧
    Primitive.rect 3 1 ∉
      [Primitive.arc (5/4) (3/4) (1/10) (-1) 181,
       Primitive.arc 2 (3/4) (1/10) 179 361,
       Primitive.arc (11/4) (3/4) (1/10) 359 541,
       Primitive.rect 1 1] ∧
    (4 : Int) ≠ 3 := by
  refine ⟨rfl, by decide, by decide⟩

/-- C2 (amended): every emitted StrandPrimitive is immediately followed by one
extra ConnectorPrimitive of length 1 at its end residue, and every emitted
HelixPrimitive is followed by such a connector at its end residue except when
the helix's end is greater than or equal to the residue track's final
residue. -/
theorem trailing_connector_after_segment (st : OverlayState) (s e last : Int)
    (hlast : st.residue_numbers.getLast? = some last) :
    add_strand_patch st s e =
      { st with ax := st.ax ++
          [Primitive.strand (s - 1) (e - s), Primitive.rect (e - 1) 1] } ∧
    add_helix_patch st s e =
      .ok { st with ax := st.ax ++ helix_arcs s e ++
              (if e < last then [Primitive.rect (e - 1) 1] else []) } :=
  ⟨add_strand_patch_eq st s e, add_helix_patch_eq st s e last hlast⟩

/-- Witness for the amended C2 at a concrete state: on track `[1,2,3,4,5]`,
strand `2..4` emits the arrow and then `rect 3 1`, and helix `2..4`
(whose end 4 is below the final residue 5) emits its arcs and then
`rect 3 1`. -/
theorem trailing_connector_after_segment_witness :
    add_strand_patch ⟨[1, 2, 3, 4, 5], []⟩ 2 4 =
      ⟨[1, 2, 3, 4, 5], [Primitive.strand 1 2, Primitive.rect 3 1]⟩ ∧
    add_helix_patch ⟨[1, 2, 3, 4, 5], []⟩ 2 4 =
      .ok ⟨[1, 2, 3, 4, 5], helix_arcs 2 4 ++ [Primitive.rect 3 1]⟩ := by
  constructor
  · rw [(trailing_connector_after_segment ⟨[1, 2, 3, 4, 5], []⟩ 2 4 5 rfl).1]
    rfl
  · rw [(trailing_connector_after_segment ⟨[1, 2, 3, 4, 5], []⟩ 2 4 5 rfl).2]
    rfl

/-- C3 counterexample: in the spec scenario (track `[1..10]`, strand `2..5`)
the emitted StrandPrimitive is `FancyArrow` at x = 1 with dx = 3, so the
arrowhead terminates at 1 + 3 = 4 (= end - 1), not at 5 as claimed. -/
theorem strand_scenario_counterexample :
    layout [1, 2, 3, 4, 5, 6, 7, 8, 9, 10] [⟨"Strand", "GLY", 2, "LYS", 5⟩] =
      .ok [Primitive.strand 1 3, Primitive.rect 4 1, Primitive.rect 1 1,
           Primitive.rect 4 1, Primitive.rect 5 1, Primitive.rect 6 1,
           Primitive.rect 7 1, Primitive.rect 8 1, Primitive.rect 9 1] ∧
    (1 : Int) + 3 = 4 ∧ (1 : Int) + 3 ≠ 5 := by
  refine ⟨rfl, rfl, by decide⟩

/-- C3 (amended): for residue_track `[1..10]` and the single strand segment
`2..5`, layout emits exactly one StrandPrimitive with geometric start 1
(= start - 1) and arrowhead terminating at 4 (= end - 1), removes residues
{2,3,4} from the worklist leaving `[1,5,6,7,8,9,10]`, and emits exactly 8
ConnectorPrimitives: one per remaining residue (the one for residue 1 shifted
by the first-residue rule) plus one extra at segment end 5. -/
theorem strand_scenario_amended :
    layout [1, 2, 3, 4, 5, 6, 7, 8, 9, 10] [⟨"Strand", "GLY", 2, "LYS", 5⟩] =
      .ok [Primitive.strand 1 3, Primitive.rect 4 1, Primitive.rect 1 1,
           Primitive.rect 4 1, Primitive.rect 5 1, Primitive.rect 6 1,
           Primitive.rect 7 1, Primitive.rect 8 1, Primitive.rect 9 1] ∧
    removeRange [1, 2, 3, 4, 5, 6, 7, 8, 9, 10] 2 5 = .ok [1, 5, 6, 7, 8, 9, 10] ∧
    count_connectors [Primitive.strand 1 3, Primitive.rect 4 1, Primitive.rect 1 1,
      Primitive.rect 4 1, Primitive.rect 5 1, Primitive.rect 6 1,
      Primitive.rect 7 1, Primitive.rect 8 1, Primitive.rect 9 1] = 8 ∧
    count_strands [Primitive.strand 1 3, Primitive.rect 4 1, Primitive.rect 1 1,
      Primitive.rect 4 1, Primitive.rect 5 1, Primitive.rect 6 1,
      Primitive.rect 7 1, Primitive.rect 8 1, Primitive.rect 9 1] = 1 := by
  refine ⟨rfl, rfl, rfl, rfl⟩

theorem process_segments_ok_append {st0 st1 : OverlayState} {rem0 rem1 : List Int}
    {l1 l2 : List Segment}
    (h : process_segments st0 rem0 (l1 ++ l2) = .ok (st1, rem1)) :
    ∃ stA remA, process_segments st0 rem0 l1 = .ok (stA, remA) ∧
      process_segments stA remA l2 = .ok (st1, rem1) := by
  rw [process_segments_append] at h
  cases h1 : process_segments st0 rem0 l1 with
  | error e => rw [h1] at h; simp at h
  | ok p =>
    obtain ⟨stA, remA⟩ := p
    rw [h1] at h
    exact ⟨stA, remA, rfl, by simpa using h⟩

theorem process_segments_ok_cons_strand {st0 st1 : OverlayState}
    {rem0 rem1 : List Int} {seg : Segment} {l : List Segment}
    (hcls : seg.ss_class = "Strand")
    (h : process_segments st0 rem0 (seg :: l) = .ok (st1, rem1)) :
    ∃ remB, removeRange rem0 seg.start_res seg.end_res = .ok remB ∧
      process_segments (add_strand_patch st0 seg.start_res seg.end_res) remB l =
        .ok (st1, rem1) := by
  simp only [process_segments, if_pos hcls] at h
  cases h2 : removeRange rem0 seg.start_res seg.end_res with
  | error e => rw [h2] at h; simp at h
  | ok remB =>
    rw [h2] at h
    exact ⟨remB, rfl, by simpa using h⟩

theorem process_segments_ok_cons_helix {st0 st1 : OverlayState}
    {rem0 rem1 : List Int} {seg : Segment} {l : List Segment}
    (hcls : seg.ss_class = "AlphaHelix")
    (h : process_segments st0 rem0 (seg :: l) = .ok (st1, rem1)) :
    ∃ stB remB, add_helix_patch st0 seg.start_res seg.end_res = .ok stB ∧
      removeRange rem0 seg.start_res seg.end_res = .ok remB ∧
      process_segments stB remB l = .ok (st1, rem1) := by
  have hns : ¬ seg.ss_class = "Strand" := by rw [hcls]; decide
  simp only [process_segments, if_neg hns, if_pos hcls] at h
  cases hh : add_helix_patch st0 seg.start_res seg.end_res with
  | error e => rw [hh] at h; simp at h
  | ok stB =>
    rw [hh] at h
    cases h2 : removeRange rem0 seg.start_res seg.end_res with
    | error e => rw [h2] at h; simp at h
    | ok remB =>
      rw [h2] at h
      exact ⟨stB, remB, rfl, rfl, by simpa using h⟩

/-- C1: for every recognized segment (Strand or AlphaHelix) with bounds
`start` and `end`, the removal step deletes from the uncovered worklist
exactly one occurrence of each integer of the half-open `range(start, end)`
(`start, ..., end-1`) and leaves the count of every other integer — in
particular of `end` — unchanged; consequently (on a duplicate-free track)
every residue of `range(start, end)` of a recognized segment is absent from
the final worklist, from which the connector pass draws its output. -/
theorem segment_removal_halfopen
    (track : List Int) (segments : List Segment)
    (st0 st1 : OverlayState) (rem : List Int) (seg : Segment)
    (hnd : track.Nodup)
    (hrun : process_segments st0 track segments = .ok (st1, rem))
    (hseg : seg ∈ segments)
    (hrec : seg.ss_class = "Strand" ∨ seg.ss_class = "AlphaHelix") :
    (∀ y ∈ pyRange seg.start_res seg.end_res, y ∉ rem) ∧
    (∀ rem₁ rem₂ : List Int,
      removeRange rem₁ seg.start_res seg.end_res = .ok rem₂ →
      (∀ y ∈ pyRange seg.start_res seg.end_res,
        rem₂.count y + 1 = rem₁.count y) ∧
      (∀ y : Int, y ∉ pyRange seg.start_res seg.end_res →
        rem₂.count y = rem₁.count y) ∧
      rem₂.count seg.end_res = rem₁.count seg.end_res) := by
  constructor
  · obtain ⟨l1, l2, rfl⟩ := List.append_of_mem hseg
    obtain ⟨stA, remA, h1, h2⟩ := process_segments_ok_append hrun
    have hndA : remA.Nodup := hnd.sublist (process_segments_ok_sublist h1)
    intro y hy
    rcases hrec with hcls | hcls
    · obtain ⟨remB, hrr, hrest⟩ := process_segments_ok_cons_strand hcls h2
      have hcnt := remove_list_count (pyRange_nodup _ _) hrr
      have hy1 : remB.count y + 1 = remA.count y := hcnt.1 y hy
      have hle : remA.count y ≤ 1 := List.nodup_iff_count_le_one.mp hndA y
      have hyB : y ∉ remB := List.count_eq_zero.mp (by omega)
      exact fun hyr => hyB ((process_segments_ok_sublist hrest).subset hyr)
    · obtain ⟨stB, remB, hh, hrr, hrest⟩ := process_segments_ok_cons_helix hcls h2
      have hcnt := remove_list_count (pyRange_nodup _ _) hrr
      have hy1 : remB.count y + 1 = remA.count y := hcnt.1 y hy
      have hle : remA.count y ≤ 1 := List.nodup_iff_count_le_one.mp hndA y
      have hyB : y ∉ remB := List.count_eq_zero.mp (by omega)
      exact fun hyr => hyB ((process_segments_ok_sublist hrest).subset hyr)
  · intro rem₁ rem₂ hrr
    have hcnt := remove_list_count (pyRange_nodup _ _) hrr
    exact ⟨hcnt.1, hcnt.2, hcnt.2 _ (by simp [mem_pyRange])⟩

/-- C1 witness: on track `[1..6]` with strand `2..5`, residue 3 (inside
`range(2,5)`) is gone from the final worklist `[1,5,6]`, and the removal left
the count of the end residue 5 unchanged. -/
theorem segment_removal_halfopen_witness :
    (3 : Int) ∉ ([1, 5, 6] : List Int) ∧
    ([1, 5, 6] : List Int).count 5 = ([1, 2, 3, 4, 5, 6] : List Int).count 5 := by
  have h := segment_removal_halfopen [1, 2, 3, 4, 5, 6]
    [⟨"Strand", "GLY", 2, "LYS", 5⟩] ⟨[1, 2, 3, 4, 5, 6], []⟩
    ⟨[1, 2, 3, 4, 5, 6], [Primitive.strand 1 3, Primitive.rect 4 1]⟩
    [1, 5, 6] ⟨"Strand", "GLY", 2, "LYS", 5⟩
    (by decide) rfl (by simp) (Or.inl rfl)
  exact ⟨h.1 3 (by decide), (h.2 [1, 2, 3, 4, 5, 6] [1, 5, 6] rfl).2.2⟩

/-- C4: in the connector pass a still-uncovered residue equal to the first
residue of the track gets its length-1 connector drawn shifted one unit right
(at `residue+1`, i.e. geometric x = residue), every other uncovered residue
gets it at its own position (x = residue - 1); and for track `[5..9]` with no
segments, layout emits exactly 5 connectors with the one for residue 5
shifted to position 6. -/
theorem first_residue_connector_shift (st : OverlayState) (f : Int)
    (rest rem : List Int) (h : st.residue_numbers = f :: rest) :
    (connector_pass st rem).ax =
      st.ax ++ rem.map (fun r =>
        if r = f then Primitive.rect r 1 else Primitive.rect (r - 1) 1) ∧
    layout [5, 6, 7, 8, 9] [] =
      .ok [Primitive.rect 5 1, Primitive.rect 5 1, Primitive.rect 6 1,
           Primitive.rect 7 1, Primitive.rect 8 1] := by
  constructor
  · rw [connector_pass_eq]
    simp [h]
  · rfl

/-- C4 witness: the connector rule instantiated on track `[5..9]` with
worklist `[5, 6]`. -/
theorem first_residue_connector_shift_witness :
    (connector_pass ⟨[5, 6, 7, 8, 9], []⟩ [5, 6]).ax =
      ([] : List Primitive) ++ [5, 6].map (fun r : Int =>
        if r = 5 then Primitive.rect r 1 else Primitive.rect (r - 1) 1) :=
  (first_residue_connector_shift ⟨[5, 6, 7, 8, 9], []⟩ 5 [6, 7, 8, 9] [5, 6] rfl).1

/-- C6: if a recognized segment's `range(start, end)` contains a residue that
is no longer in the uncovered worklist when the segment is processed
(duplicate/overlapping segments, or residues outside the track), the removal
fails and the whole layout aborts with that error — fatal and unrecovered
(the spec's CoverageLookupError; Python's `list.remove` raises here). -/
theorem overlap_removal_fatal (track : List Int) (pre post : List Segment)
    (seg : Segment) (st : OverlayState) (rem : List Int)
    (hpre : process_segments ⟨track, []⟩ track pre = .ok (st, rem))
    (hrec : seg.ss_class = "Strand" ∨ seg.ss_class = "AlphaHelix")
    (hmiss : ∃ y ∈ pyRange seg.start_res seg.end_res, y ∉ rem)
    (hne : track ≠ []) :
    ∃ z, layout track (pre ++ seg :: post) = .error (PyError.remove_not_found z) := by
  obtain ⟨z, hz⟩ := remove_list_error_of_missing hmiss
  refine ⟨z, ?_⟩
  obtain ⟨last, hlast⟩ : ∃ last, st.residue_numbers.getLast? = some last := by
    rw [process_segments_ok_residue hpre]
    show ∃ last, track.getLast? = some last
    cases track with
    | nil => exact absurd rfl hne
    | cons a t => exact ⟨(a :: t).getLast (by simp), List.getLast?_eq_getLast _ _⟩
  have hproc : process_segments ⟨track, []⟩ track (pre ++ seg :: post) =
      .error (PyError.remove_not_found z) := by
    rw [process_segments_append, hpre]
    show process_segments st rem (seg :: post) = _
    rcases hrec with hcls | hcls
    · simp only [process_segments, if_pos hcls, removeRange]
      rw [hz]
    · have hns : ¬ seg.ss_class = "Strand" := by rw [hcls]; decide
      simp only [process_segments, if_neg hns, if_pos hcls]
      rw [add_helix_patch_eq st seg.start_res seg.end_res last hlast]
      simp only [removeRange]
      rw [hz]
  simp only [layout, find_ss_segments_and_generate_overlay, hproc]

/-- C6 witness: on track `[1,2,3]` a strand `5..7` references residues outside
the track, so layout aborts with a removal error. -/
theorem overlap_removal_fatal_witness :
    ∃ z, layout [1, 2, 3] [⟨"Strand", "GLY", 5, "LYS", 7⟩] =
      .error (PyError.remove_not_found z) :=
  overlap_removal_fatal [1, 2, 3] [] [] ⟨"Strand", "GLY", 5, "LYS", 7⟩
    ⟨[1, 2, 3], []⟩ [1, 2, 3] rfl (Or.inl rfl)
    ⟨5, by decide, by decide⟩ (by decide)

/-- C8: the layout is deterministic and idempotent across calls — running the
overlay generation a second time with the same residue track and segment list
appends exactly the same ordered primitive sequence as the first run (the
emitted primitives do not depend on what is already on the axis). -/
theorem layout_idempotent (track : List Int) (segs : List Segment)
    (ax0 : List Primitive) (st1 : OverlayState)
    (h : find_ss_segments_and_generate_overlay ⟨track, ax0⟩ segs = .ok st1) :
    ∃ p, st1 = ⟨track, ax0 ++ p⟩ ∧
      find_ss_segments_and_generate_overlay st1 segs =
        .ok ⟨track, ax0 ++ p ++ p⟩ := by
  rw [generate_overlay_ax] at h
  cases hb : find_ss_segments_and_generate_overlay ⟨track, []⟩ segs with
  | error e => rw [hb] at h; simp [Except.map] at h
  | ok st0 =>
    rw [hb, except_map_ok] at h
    simp only [Except.ok.injEq] at h
    refine ⟨st0.ax, h.symm, ?_⟩
    rw [← h, generate_overlay_ax track (ax0 ++ st0.ax) segs, hb, except_map_ok]

/-- C8 witness: two runs on track `[1,2]` with no segments both append the
same two connectors. -/
theorem layout_idempotent_witness :
    ∃ p, (⟨[1, 2], [Primitive.rect 1 1, Primitive.rect 1 1]⟩ : OverlayState) =
        ⟨[1, 2], ([] : List Primitive) ++ p⟩ ∧
      find_ss_segments_and_generate_overlay
        ⟨[1, 2], [Primitive.rect 1 1, Primitive.rect 1 1]⟩ [] =
        .ok ⟨[1, 2], ([] : List Primitive) ++ p ++ p⟩ :=
  layout_idempotent [1, 2] [] []
    ⟨[1, 2], [Primitive.rect 1 1, Primitive.rect 1 1]⟩ rfl

/-- C9: a rendering call never mutates its inputs — the caller's
`residue_numbers` list is unchanged after the overlay generation (the
worklist removal operates only on a private copy), and the segment list is
consumed read-only by construction. -/
theorem layout_preserves_inputs (st0 st1 : OverlayState) (segs : List Segment)
    (h : find_ss_segments_and_generate_overlay st0 segs = .ok st1) :
    st1.residue_numbers = st0.residue_numbers := by
  simp only [find_ss_segments_and_generate_overlay] at h
  cases hq : process_segments st0 st0.residue_numbers segs with
  | error e => rw [hq] at h; simp at h
  | ok q =>
    obtain ⟨stA, remA⟩ := q
    rw [hq] at h
    simp only [Except.ok.injEq] at h
    rw [← h, connector_pass_eq]
    show stA.residue_numbers = st0.residue_numbers
    exact process_segments_ok_residue hq

/-- C9 witness: a concrete run on track `[1,2,3]` leaves `residue_numbers`
untouched. -/
theorem layout_preserves_inputs_witness :
    ((⟨[1, 2, 3], [Primitive.rect 1 1, Primitive.rect 1 1, Primitive.rect 2 1]⟩ :
        OverlayState)).residue_numbers =
      ((⟨[1, 2, 3], []⟩ : OverlayState)).residue_numbers :=
  layout_preserves_inputs ⟨[1, 2, 3], []⟩
    ⟨[1, 2, 3], [Primitive.rect 1 1, Primitive.rect 1 1, Primitive.rect 2 1]⟩
    [] rfl

theorem parse_LOC_line_ok {l : List Char} {rec : List Tok}
    (h : parse_LOC_line l = .ok rec) :
    ∃ t2 n2 t4 n4,
      (clean_line l).get? 2 = some t2 ∧ pyInt t2 = some n2 ∧
      (clean_line l).get? 4 = some t4 ∧ pyInt t4 = some n4 ∧
      rec = ((((clean_line l).map Tok.s).set 2 (Tok.i n2)).set 4 (Tok.i n4)) := by
  simp only [parse_LOC_line] at h
  split at h
  · exact absurd h (by simp)
  · rename_i t2 h2
    split at h
    · exact absurd h (by simp)
    · rename_i n2 hn2
      split at h
      · exact absurd h (by simp)
      · rename_i t4 h4
        split at h
        · exact absurd h (by simp)
        · rename_i n4 hn4
          simp only [Except.ok.injEq] at h
          exact ⟨t2, n2, t4, n4, h2, hn2, h4, hn4, h.symm⟩

/-- C10: the parser strips every hyphen of a selected line before splitting,
so no token of a cleaned line contains a hyphen and every integer residue
field of a successfully parsed record is non-negative — a negative residue
number is silently turned into its hyphen-free (absolute) form rather than
rejected. -/
theorem parsed_residues_nonneg (line : List Char) :
    (∀ t ∈ clean_line line, '-' ∉ t) ∧
    (∀ rec : List Tok, ∀ n : Int, parse_LOC_line line = .ok rec →
      Tok.i n ∈ rec → 0 ≤ n) := by
  refine ⟨clean_line_no_hyphen line, ?_⟩
  intro rec n hok hmem
  obtain ⟨t2, n2, t4, n4, h2, hn2, h4, hn4, hrec⟩ := parse_LOC_line_ok hok
  subst hrec
  rcases List.mem_or_eq_of_mem_set hmem with hmem1 | heq4
  · rcases List.mem_or_eq_of_mem_set hmem1 with hmem2 | heq2
    · obtain ⟨t, ht, hts⟩ := List.mem_map.mp hmem2
      exact absurd hts (by simp)
    · injection heq2 with hnn
      subst hnn
      exact pyInt_nonneg hn2 (clean_line_no_hyphen line t2 (List.get?_mem h2))
  · injection heq4 with hnn
    subst hnn
    exact pyInt_nonneg hn4 (clean_line_no_hyphen line t4 (List.get?_mem h4))

/-- C10 witness: the line with residue number `-79` parses to the record with
the non-negative 79. -/
theorem parsed_residues_nonneg_witness :
    parse_LOC_line ("LOC  AlphaHelix GLU    -79 A      MET   99 A   ".toList) =
      .ok [Tok.s "AlphaHelix".toList, Tok.s "GLU".toList, Tok.i 79,
           Tok.s "MET".toList, Tok.i 99] ∧
    (0 : Int) ≤ 79 :=
  ⟨by rfl,
   (parsed_residues_nonneg
      ("LOC  AlphaHelix GLU    -79 A      MET   99 A   ".toList)).2
     [Tok.s "AlphaHelix".toList, Tok.s "GLU".toList, Tok.i 79,
      Tok.s "MET".toList, Tok.i 99] 79 (by rfl) (by decide)⟩
